import Mathlib

/-!
Verification development for the travel-monitor price discovery engine.

The Python modules under src/travel_monitor are shallowly embedded here:
byte strings become `List Nat` (each element a byte value), page text
becomes `String` processed as `List Char`, decimal amounts become `ℚ`,
fallible code returns `Option`, and each embedded definition mirrors one
source function (named after it where possible).
-/

namespace TravelMonitor

/-! ## Shared text helpers -/

/-- Whitespace characters recognized by the Python str.strip used on page text. -/
def isPySpace (c : Char) : Bool :=
  c == ' ' || c == '\t' || c == '\n' || c == '\r' || c == Char.ofNat 11 || c == Char.ofNat 12

/-- Embedding of Python str.strip: remove leading and trailing whitespace. -/
def pyStrip (l : List Char) : List Char :=
  ((l.dropWhile isPySpace).reverse.dropWhile isPySpace).reverse

/-! ## utils.py : protobuf encoding (build_explore_tfs)

`pb_varint` in the source loops while the value exceeds 0x7f; the fuel
argument of `pbVarintGo` makes the same loop structurally recursive
(`v + 1` steps always suffice since the value shrinks by a factor 128). -/

def pbVarintGo : Nat → Nat → List Nat
  | 0, _ => []
  | fuel + 1, v => if 127 < v then (v % 128 + 128) :: pbVarintGo fuel (v / 128) else [v]

/-- Embedding of utils.pb_varint. -/
def pb_varint (v : Nat) : List Nat := pbVarintGo (v + 1) v

/-- Embedding of utils.pb_tag. -/
def pb_tag (field wire : Nat) : List Nat := pb_varint ((field <<< 3) ||| wire)

/-- Embedding of utils.pb_field_varint. -/
def pb_field_varint (field v : Nat) : List Nat := pb_tag field 0 ++ pb_varint v

/-- Embedding of utils.pb_field_bytes. -/
def pb_field_bytes (field : Nat) (data : List Nat) : List Nat :=
  pb_tag field 2 ++ pb_varint data.length ++ data

/-- Byte sequence assembled by utils.build_explore_tfs before base64 encoding.
String inputs of the source arrive here as their UTF-8 byte sequences
(pb_field_string encodes the string to bytes before pb_field_bytes). -/
def explore_tfs_bytes (origin_geo dest_geo dep_date ret_date : List Nat) (cabin : String) :
    List Nat :=
  let cabin_val : Nat := if cabin = "economy" then 1 else 3
  let origin_sub := pb_field_varint 1 2 ++ pb_field_bytes 2 origin_geo
  let dep_leg := pb_field_bytes 2 dep_date ++ pb_field_bytes 13 origin_sub
  let ret_leg := pb_field_bytes 2 ret_date ++ pb_field_bytes 14 origin_sub
  let dest_sub := pb_field_bytes 2 dest_geo
  let filter_sub := [0x08] ++ List.replicate 9 0xff ++ [0x01]
  pb_field_varint 1 28 ++ pb_field_varint 2 3 ++ pb_field_bytes 3 dep_leg
    ++ pb_field_bytes 3 ret_leg ++ pb_field_varint 8 1 ++ pb_field_varint 9 cabin_val
    ++ pb_field_varint 14 1 ++ pb_field_bytes 16 filter_sub ++ pb_field_varint 19 1
    ++ pb_field_bytes 22 dest_sub

/-! ## base64.urlsafe_b64encode with padding stripped -/

/-- URL safe base64 alphabet (standard alphabet with the last two characters
replaced by the minus sign and the underscore). -/
def b64url_chars : List Char :=
  "ABCDEFGHIJKLMNOPQRSTUVWXYZabcdefghijklmnopqrstuvwxyz0123456789-_".data

def b64char (v : Nat) : Char := b64url_chars.getD v 'A'

def b64charDec (c : Char) : Option Nat := b64url_chars.findIdx? (fun x => x == c)

/-- RFC 4648 base64 over byte lists, URL safe alphabet, with padding. -/
def b64encode : List Nat → List Char
  | [] => []
  | [a] => [b64char (a / 4), b64char (a % 4 * 16), '=', '=']
  | [a, b] => [b64char (a / 4), b64char (a % 4 * 16 + b / 16), b64char (b % 16 * 4), '=']
  | a :: b :: d :: rest =>
    b64char (a / 4) :: b64char (a % 4 * 16 + b / 16) :: b64char (b % 16 * 4 + d / 64)
      :: b64char (d % 64) :: b64encode rest

/-- Embedding of the Python rstrip of padding bytes: drop trailing equals signs. -/
def rstripPad (l : List Char) : List Char :=
  (l.reverse.dropWhile (fun c => c == '=')).reverse

/-- Decoder for unpadded URL safe base64 (the inverse direction used to state
what the decoded bytes of the encoder output contain). -/
def b64decodeNoPad : List Char → Option (List Nat)
  | [] => some []
  | [c1, c2] =>
    match b64charDec c1, b64charDec c2 with
    | some v1, some v2 => some [v1 * 4 + v2 / 16]
    | _, _ => none
  | [c1, c2, c3] =>
    match b64charDec c1, b64charDec c2, b64charDec c3 with
    | some v1, some v2, some v3 => some [v1 * 4 + v2 / 16, v2 % 16 * 16 + v3 / 4]
    | _, _, _ => none
  | c1 :: c2 :: c3 :: c4 :: rest =>
    match b64charDec c1, b64charDec c2, b64charDec c3, b64charDec c4, b64decodeNoPad rest with
    | some v1, some v2, some v3, some v4, some tail =>
      some ((v1 * 4 + v2 / 16) :: (v2 % 16 * 16 + v3 / 4) :: (v3 % 4 * 64 + v4) :: tail)
    | _, _, _, _, _ => none
  | [_] => none

/-- Embedding of utils.build_explore_tfs: assemble the tfs bytes, base64
encode them with the URL safe alphabet and strip the padding. -/
def build_explore_tfs (origin_geo dest_geo dep_date ret_date : List Nat) (cabin : String) :
    List Char :=
  rstripPad (b64encode (explore_tfs_bytes origin_geo dest_geo dep_date ret_date cabin))

/-! ### Supporting lemmas for the base64 roundtrip -/

theorem b64charDec_b64char : ∀ v : Nat, v < 64 → b64charDec (b64char v) = some v := by decide

theorem b64char_ne_pad : ∀ v : Nat, v < 64 → b64char v ≠ '=' := by decide

theorem dropWhile_append_eq (p : Char → Bool) (l1 l2 : List Char) :
    List.dropWhile p (l1 ++ l2) =
      if (List.dropWhile p l1).isEmpty then List.dropWhile p l2
      else List.dropWhile p l1 ++ l2 := by
  induction l1 with
  | nil => simp
  | cons x xs ih =>
    by_cases hx : p x
    · simpa [List.dropWhile, hx] using ih
    · simp [List.dropWhile, hx]

theorem rstripPad_cons (x : Char) (l : List Char) (hx : x ≠ '=') :
    rstripPad (x :: l) = x :: rstripPad l := by
  unfold rstripPad
  rw [List.reverse_cons, dropWhile_append_eq]
  by_cases h : (List.dropWhile (fun c => c == '=') l.reverse).isEmpty
  · rw [if_pos h]
    have h2 : List.dropWhile (fun c => c == '=') l.reverse = [] := by
      simpa [List.isEmpty_iff] using h
    simp [List.dropWhile, beq_eq_false_iff_ne.mpr hx, h2]
  · rw [if_neg h]
    simp

theorem b64_decode_encode (bs : List Nat) (h : ∀ b ∈ bs, b < 256) :
    b64decodeNoPad (rstripPad (b64encode bs)) = some bs := by
  match bs with
  | [] => simp [b64encode, rstripPad, b64decodeNoPad]
  | [a] =>
    have ha : a < 256 := h a (by simp)
    have h1 : a / 4 < 64 := by omega
    have h2 : a % 4 * 16 < 64 := by omega
    have e : rstripPad [b64char (a / 4), b64char (a % 4 * 16), '=', '='] =
        [b64char (a / 4), b64char (a % 4 * 16)] := by
      rw [show ([b64char (a / 4), b64char (a % 4 * 16), '=', '='] : List Char) =
            b64char (a / 4) :: b64char (a % 4 * 16) :: ['=', '='] from rfl,
          rstripPad_cons _ _ (b64char_ne_pad _ h1),
          rstripPad_cons _ _ (b64char_ne_pad _ h2)]
      rfl
    rw [b64encode, e]
    simp only [b64decodeNoPad, b64charDec_b64char _ h1, b64charDec_b64char _ h2]
    simp
    omega
  | [a, b] =>
    have ha : a < 256 := h a (by simp)
    have hb : b < 256 := h b (by simp)
    have h1 : a / 4 < 64 := by omega
    have h2 : a % 4 * 16 + b / 16 < 64 := by omega
    have h3 : b % 16 * 4 < 64 := by omega
    have e : rstripPad [b64char (a / 4), b64char (a % 4 * 16 + b / 16),
        b64char (b % 16 * 4), '='] =
        [b64char (a / 4), b64char (a % 4 * 16 + b / 16), b64char (b % 16 * 4)] := by
      rw [show ([b64char (a / 4), b64char (a % 4 * 16 + b / 16), b64char (b % 16 * 4), '='] :
            List Char) = b64char (a / 4) :: b64char (a % 4 * 16 + b / 16) ::
            b64char (b % 16 * 4) :: ['='] from rfl,
          rstripPad_cons _ _ (b64char_ne_pad _ h1),
          rstripPad_cons _ _ (b64char_ne_pad _ h2),
          rstripPad_cons _ _ (b64char_ne_pad _ h3)]
      rfl
    rw [b64encode, e]
    simp only [b64decodeNoPad, b64charDec_b64char _ h1, b64charDec_b64char _ h2,
      b64charDec_b64char _ h3]
    simp
    omega
  | a :: b :: d :: rest =>
    have ha : a < 256 := h a (by simp)
    have hb : b < 256 := h b (by simp)
    have hd : d < 256 := h d (by simp)
    have hrest : ∀ x ∈ rest, x < 256 := fun x hx => h x (by simp [hx])
    have ih := b64_decode_encode rest hrest
    have h1 : a / 4 < 64 := by omega
    have h2 : a % 4 * 16 + b / 16 < 64 := by omega
    have h3 : b % 16 * 4 + d / 64 < 64 := by omega
    have h4 : d % 64 < 64 := by omega
    rw [b64encode,
        rstripPad_cons _ _ (b64char_ne_pad _ h1),
        rstripPad_cons _ _ (b64char_ne_pad _ h2),
        rstripPad_cons _ _ (b64char_ne_pad _ h3),
        rstripPad_cons _ _ (b64char_ne_pad _ h4)]
    simp only [b64decodeNoPad, b64charDec_b64char _ h1, b64charDec_b64char _ h2,
      b64charDec_b64char _ h3, b64charDec_b64char _ h4, ih]
    simp
    omega

/-! ### Byte range of the assembled tfs sequence -/

theorem pbVarintGo_lt (fuel : Nat) : ∀ v : Nat, ∀ x ∈ pbVarintGo fuel v, x < 256 := by
  induction fuel with
  | zero => intro v x hx; simp [pbVarintGo] at hx
  | succ n ih =>
    intro v x hx
    rw [pbVarintGo] at hx
    by_cases hv : 127 < v
    · rw [if_pos hv] at hx
      rcases List.mem_cons.mp hx with h1 | h1
      · omega
      · exact ih _ x h1
    · rw [if_neg hv] at hx
      simp at hx
      omega

theorem pb_varint_lt (v : Nat) : ∀ x ∈ pb_varint v, x < 256 := pbVarintGo_lt _ _

theorem mem_append_lt (l1 l2 : List Nat) (h1 : ∀ x ∈ l1, x < 256) (h2 : ∀ x ∈ l2, x < 256) :
    ∀ x ∈ l1 ++ l2, x < 256 := by
  intro x hx
  rcases List.mem_append.mp hx with h | h
  · exact h1 x h
  · exact h2 x h

theorem pb_tag_lt (f w : Nat) : ∀ x ∈ pb_tag f w, x < 256 := pb_varint_lt _

theorem pb_field_varint_lt (f v : Nat) : ∀ x ∈ pb_field_varint f v, x < 256 :=
  mem_append_lt _ _ (pb_tag_lt _ _) (pb_varint_lt _)

theorem pb_field_bytes_lt (f : Nat) (data : List Nat) (h : ∀ x ∈ data, x < 256) :
    ∀ x ∈ pb_field_bytes f data, x < 256 :=
  mem_append_lt _ _ (mem_append_lt _ _ (pb_tag_lt _ _) (pb_varint_lt _)) h

theorem explore_tfs_bytes_lt (og dg dd rd : List Nat) (cabin : String)
    (ho : ∀ x ∈ og, x < 256) (hg : ∀ x ∈ dg, x < 256)
    (hd : ∀ x ∈ dd, x < 256) (hr : ∀ x ∈ rd, x < 256) :
    ∀ x ∈ explore_tfs_bytes og dg dd rd cabin, x < 256 := by
  simp only [explore_tfs_bytes]
  have hsub : ∀ x ∈ pb_field_varint 1 2 ++ pb_field_bytes 2 og, x < 256 :=
    mem_append_lt _ _ (pb_field_varint_lt _ _) (pb_field_bytes_lt _ _ ho)
  have hfil : ∀ x ∈ ([0x08] ++ List.replicate 9 0xff ++ [0x01] : List Nat), x < 256 := by
    decide
  exact mem_append_lt _ _ (mem_append_lt _ _ (mem_append_lt _ _ (mem_append_lt _ _
    (mem_append_lt _ _ (mem_append_lt _ _ (mem_append_lt _ _ (mem_append_lt _ _
      (mem_append_lt _ _
        (pb_field_varint_lt _ _) (pb_field_varint_lt _ _))
        (pb_field_bytes_lt _ _ (mem_append_lt _ _ (pb_field_bytes_lt _ _ hd) (pb_field_bytes_lt _ _ hsub))))
        (pb_field_bytes_lt _ _ (mem_append_lt _ _ (pb_field_bytes_lt _ _ hr) (pb_field_bytes_lt _ _ hsub))))
        (pb_field_varint_lt _ _))
        (pb_field_varint_lt _ _))
        (pb_field_varint_lt _ _))
        (pb_field_bytes_lt _ _ hfil))
        (pb_field_varint_lt _ _))
        (pb_field_bytes_lt _ _ (pb_field_bytes_lt _ _ hg))

/-! ### Claim C1 -/

/-- C1: For every (origin geo token, destination geo token, departure date,
return date, cabin) input given as byte sequences, build_explore_tfs is a pure
function (identical inputs give byte identical output), its output is the URL
safe base64 encoding, with padding stripped, of the tfs byte sequence assembled
in the fixed field order of the source, decoding that output recovers exactly
the assembled bytes, and inside them the passenger count field is the varint
encoded value 1 (bytes 64, 1) while the cabin enum field carries 1 when cabin
equals "economy" and 3 for every other cabin string (bytes 72, 1 or 72, 3). -/
theorem c1_encoder_pure_and_fields (og dg dd rd : List Nat) (cabin : String)
    (ho : ∀ x ∈ og, x < 256) (hg : ∀ x ∈ dg, x < 256)
    (hd : ∀ x ∈ dd, x < 256) (hr : ∀ x ∈ rd, x < 256) :
    (∀ og2 dg2 dd2 rd2 cabin2, og = og2 → dg = dg2 → dd = dd2 → rd = rd2 → cabin = cabin2 →
      build_explore_tfs og dg dd rd cabin = build_explore_tfs og2 dg2 dd2 rd2 cabin2)
    ∧ build_explore_tfs og dg dd rd cabin
        = rstripPad (b64encode (explore_tfs_bytes og dg dd rd cabin))
    ∧ b64decodeNoPad (build_explore_tfs og dg dd rd cabin)
        = some (explore_tfs_bytes og dg dd rd cabin)
    ∧ (∃ pre post, explore_tfs_bytes og dg dd rd cabin
        = pre ++ (pb_field_varint 8 1 ++
            pb_field_varint 9 (if cabin = "economy" then 1 else 3)) ++ post)
    ∧ pb_field_varint 8 1 = [64, 1]
    ∧ pb_field_varint 9 1 = [72, 1] ∧ pb_field_varint 9 3 = [72, 3] := by
  refine ⟨?_, rfl, ?_, ?_, rfl, rfl, rfl⟩
  · intro og2 dg2 dd2 rd2 cabin2 e1 e2 e3 e4 e5
    rw [e1, e2, e3, e4, e5]
  · exact b64_decode_encode _ (explore_tfs_bytes_lt og dg dd rd cabin ho hg hd hr)
  · refine ⟨pb_field_varint 1 28 ++ pb_field_varint 2 3
      ++ pb_field_bytes 3 (pb_field_bytes 2 dd
          ++ pb_field_bytes 13 (pb_field_varint 1 2 ++ pb_field_bytes 2 og))
      ++ pb_field_bytes 3 (pb_field_bytes 2 rd
          ++ pb_field_bytes 14 (pb_field_varint 1 2 ++ pb_field_bytes 2 og)),
      pb_field_varint 14 1 ++ pb_field_bytes 16 ([0x08] ++ List.replicate 9 0xff ++ [0x01])
      ++ pb_field_varint 19 1 ++ pb_field_bytes 22 (pb_field_bytes 2 dg), ?_⟩
    simp [explore_tfs_bytes, List.append_assoc]

/-- Witness for C1 at a concrete input: the encoder output for concrete byte
inputs with cabin "economy" decodes back to the assembled tfs bytes. -/
theorem c1_encoder_pure_and_fields_witness :
    b64decodeNoPad (build_explore_tfs [47] [48] [50] [51] "economy")
      = some (explore_tfs_bytes [47] [48] [50] [51] "economy") :=
  (c1_encoder_pure_and_fields [47] [48] [50] [51] "economy"
    (by decide) (by decide) (by decide) (by decide)).2.2.1

/-! ## Numeric helpers shared by the scrapers -/

/-- Value of a list of decimal digit characters. -/
def digitsToNat (ds : List Char) : Nat := ds.foldl (fun a c => a * 10 + (c.toNat - 48)) 0

/-- Python round to the nearest integer with ties to even. -/
def round_half_even (x : ℚ) : ℤ :=
  if x - ⌊x⌋ < 1 / 2 then ⌊x⌋
  else if 1 / 2 < x - ⌊x⌋ then ⌊x⌋ + 1
  else if Even ⌊x⌋ then ⌊x⌋ else ⌊x⌋ + 1

/-- Python round(x, 2): round at two decimal places, ties to even. -/
def py_round2 (x : ℚ) : ℚ := (round_half_even (x * 100) : ℚ) / 100

/-- Lowercasing used for Python str.lower on the page text handled here. -/
def asciiLower (l : List Char) : List Char := l.map Char.toLower

/-- Uppercasing used for Python str.upper on cabin tokens. -/
def asciiUpper (s : String) : String := ⟨s.data.map Char.toUpper⟩

/-! ## train_scraper.py : structured Renfe extraction

The anchored regular expressions of the source are embedded as the
deterministic parsers below; each one reproduces the greedy match with
backtracking of the original pattern on all inputs (the patterns contain no
alternation whose backtracking could succeed after the greedy path fails,
as each optional piece is followed by a requirement no skipped character
can satisfy). -/

/-- Parser for the anchored pattern of a clock time line: one or two digits,
a colon, two digits, optional spaces, the letter h, end of line. Returns the
captured HH:MM text. -/
def hhmm_match (l : List Char) : Option (List Char) :=
  let ds := l.takeWhile Char.isDigit
  let r1 := l.dropWhile Char.isDigit
  if ds.length = 0 ∨ 2 < ds.length then none
  else
    match r1 with
    | ':' :: r2 =>
      let ms := r2.takeWhile Char.isDigit
      let r3 := r2.dropWhile Char.isDigit
      if ms.length = 2 then
        match r3.dropWhile isPySpace with
        | ['h'] => some (ds ++ ':' :: ms)
        | _ => none
      else none
    | _ => none

/-- Parser for the anchored duration phrase: digits, spaces, the word horas
with optional plural s, optional digits, the optional word minutos, end of
line. Returns hours and the optional minutes. -/
def horas_match (l : List Char) : Option (Nat × Option Nat) :=
  let ds := l.takeWhile Char.isDigit
  let r1 := l.dropWhile Char.isDigit
  if ds.length = 0 then none
  else
    let sp := r1.takeWhile isPySpace
    let r2 := r1.dropWhile isPySpace
    if sp.length = 0 then none
    else
      match r2 with
      | 'h' :: 'o' :: 'r' :: 'a' :: r3 =>
        let r4 := match r3 with | 's' :: t => t | _ => r3
        let r5 := r4.dropWhile isPySpace
        let ms := r5.takeWhile Char.isDigit
        let r6 := r5.dropWhile Char.isDigit
        let r7 := r6.dropWhile isPySpace
        let mnum : Option Nat := if ms.length = 0 then none else some (digitsToNat ms)
        match r7 with
        | [] => some (digitsToNat ds, mnum)
        | 'm' :: 'i' :: 'n' :: 'u' :: 't' :: 'o' :: r8 =>
          let r9 := match r8 with | 's' :: t => t | _ => r8
          if r9 = [] then some (digitsToNat ds, mnum) else none
        | _ => none
      | _ => none

/-- Parser for the anchored price token: one to three digits, an optional
decimal separator (comma or dot) with exactly two digits, optional spaces,
the euro sign, end of line. The captured text has its comma replaced by a
dot and is read as a decimal number. -/
def euro_amount_match (l : List Char) : Option ℚ :=
  let ds := l.takeWhile Char.isDigit
  let r1 := l.dropWhile Char.isDigit
  if ds.length = 0 ∨ 3 < ds.length then none
  else
    let withFrac : Option ℚ :=
      match r1 with
      | c :: r2 =>
        if c = '.' ∨ c = ',' then
          let fs := r2.takeWhile Char.isDigit
          let r3 := r2.dropWhile Char.isDigit
          if fs.length = 2 then
            match r3.dropWhile isPySpace with
            | ['€'] => some (mkRat (digitsToNat ds * 100 + digitsToNat fs) 100)
            | _ => none
          else none
        else none
      | [] => none
    match withFrac with
    | some q => some q
    | none =>
      match r1.dropWhile isPySpace with
      | ['€'] => some ((digitsToNat ds : ℚ))
      | _ => none

/-- Result row of the train extractors (the dict built by the source). -/
structure TrainRow where
  price : ℚ
  train_type : String
  departure_time : List Char
  arrival_time : List Char
  duration : List Char
deriving DecidableEq, Repr

/-- Duration formatting of the source: hours and minutes, minutes omitted
when zero. -/
def fmtDuration (h m : Nat) : List Char :=
  if m ≠ 0 then (toString h).data ++ 'h' :: ' ' :: (toString m).data ++ ['m']
  else (toString h).data ++ ['h']

/-- Forward scan over the lines after a departure marker: skip the Enlace
marker, keep only the first duration phrase, take the first clock time as
arrival, stop at the first terminated price token. Returns the price found
(if any) with the collected duration and arrival fields. -/
def renfe_row_scan : List (List Char) → List Char → List Char →
    Option ℚ × List Char × List Char
  | [], dur, arr => (none, dur, arr)
  | l :: rest, dur, arr =>
    let jline := pyStrip l
    if asciiLower jline = "enlace".data then renfe_row_scan rest dur arr
    else
      match horas_match jline with
      | some (h, m) =>
        renfe_row_scan rest (if dur = [] then fmtDuration h (m.getD 0) else dur) arr
      | none =>
        match hhmm_match jline with
        | some t =>
          if arr = [] then renfe_row_scan rest dur t
          else
            match euro_amount_match jline with
            | some p => (some p, dur, arr)
            | none => renfe_row_scan rest dur arr
        | none =>
          match euro_amount_match jline with
          | some p => (some p, dur, arr)
          | none => renfe_row_scan rest dur arr

/-- Main loop of _extract_renfe_results: every line whose stripped text is a
departure marker opens a row scan over the following 13 lines (the row spans
at most 14 lines including its marker); rows whose price is missing or out
of the noise range are discarded. The loop advances one line at a time. -/
def renfe_loop : List (List Char) → List TrainRow
  | [] => []
  | l :: rest =>
    let line := pyStrip l
    match hhmm_match line with
    | none => renfe_loop rest
    | some dep =>
      let sc := renfe_row_scan (rest.take 13) [] []
      match sc.1 with
      | some p =>
        if 5 < p ∧ p < 500 then ⟨p, "", dep, sc.2.2, sc.2.1⟩ :: renfe_loop rest
        else renfe_loop rest
      | none => renfe_loop rest

/-- Stable ascending insertion used to model the Python list sort by price. -/
def insertRowByPrice (x : TrainRow) : List TrainRow → List TrainRow
  | [] => [x]
  | y :: ys => if x.price < y.price then x :: y :: ys else y :: insertRowByPrice x ys

/-- Stable sort by price (Python list.sort with the price key). -/
def sortRowsByPrice (l : List TrainRow) : List TrainRow :=
  l.foldl (fun acc x => insertRowByPrice x acc) []

/-- Embedding of train_scraper._extract_renfe_results. -/
def _extract_renfe_results (text : String) : List TrainRow :=
  sortRowsByPrice (renfe_loop (text.data.splitOn '\n'))

/-! ## train_scraper.py : generic extraction (Trainline / Omio) -/

/-- Unanchored euro amount pattern matched at the current position, returning
the parsed value and the number of characters consumed up to and including
the euro sign. The pattern is one to three digits, an optional separator with
exactly two digits, optional whitespace, the euro sign. -/
def euro_search_at (l : List Char) : Option (ℚ × Nat) :=
  let ds := l.takeWhile Char.isDigit
  let r1 := l.dropWhile Char.isDigit
  if ds.length = 0 ∨ 3 < ds.length then none
  else
    let withFrac : Option (ℚ × Nat) :=
      match r1 with
      | c :: r2 =>
        if c = '.' ∨ c = ',' then
          let fs := r2.takeWhile Char.isDigit
          if fs.length = 2 then
            let r3 := r2.drop 2
            let sp := r3.takeWhile isPySpace
            match r3.dropWhile isPySpace with
            | '€' :: _ =>
              some (mkRat (digitsToNat ds * 100 + digitsToNat (fs.take 2)) 100,
                ds.length + 3 + sp.length + 1)
            | _ => none
          else none
        else none
      | [] => none
    match withFrac with
    | some q => some q
    | none =>
      let sp := r1.takeWhile isPySpace
      match r1.dropWhile isPySpace with
      | '€' :: _ => some ((digitsToNat ds : ℚ), ds.length + sp.length + 1)
      | _ => none

/-- Leftmost euro amount in a line (re.search semantics: positions are tried
left to right, and at each position the greedy match of euro_search_at is the
only one that can succeed). -/
def euro_search_line : List Char → Option ℚ
  | [] => none
  | c :: rest =>
    match euro_search_at (c :: rest) with
    | some (q, _) => some q
    | none => euro_search_line rest

/-- All non overlapping euro amounts of a text, scanning from the end of each
match (re.finditer semantics); the fuel argument is the text length plus one,
which always suffices since every step consumes at least one character. -/
def finditer_euro (fuel : Nat) (l : List Char) : List ℚ :=
  match fuel with
  | 0 => []
  | fuel + 1 =>
    match l with
    | [] => []
    | c :: rest =>
      match euro_search_at (c :: rest) with
      | some (q, n) => q :: finditer_euro fuel ((c :: rest).drop n)
      | none => finditer_euro fuel rest

/-- Clock time pattern matched at the current position (one or two digits, a
colon, two digits, no anchors), returning the captured text and the consumed
length. -/
def hhmm_search_at (l : List Char) : Option (List Char × Nat) :=
  let ds := l.takeWhile Char.isDigit
  let r1 := l.dropWhile Char.isDigit
  if ds.length = 0 ∨ 2 < ds.length then none
  else
    match r1 with
    | ':' :: r2 =>
      let ms := r2.takeWhile Char.isDigit
      if 2 ≤ ms.length then some (ds ++ ':' :: ms.take 2, ds.length + 3) else none
    | _ => none

/-- All clock times of a text in order (re.findall semantics). -/
def findall_hhmm (fuel : Nat) (l : List Char) : List (List Char) :=
  match fuel with
  | 0 => []
  | fuel + 1 =>
    match l with
    | [] => []
    | c :: rest =>
      match hhmm_search_at (c :: rest) with
      | some (t, n) => t :: findall_hhmm fuel ((c :: rest).drop n)
      | none => findall_hhmm fuel rest

/-- Duration pattern (digits, optional spaces, h, optional spaces, optional
digits, optional spaces, m) matched at the current position. Returns hours
and minutes (minutes default 0 when the group is absent). -/
def duration_search_at (l : List Char) : Option (Nat × Nat) :=
  let ds := l.takeWhile Char.isDigit
  let r1 := l.dropWhile Char.isDigit
  if ds.length = 0 ∨ 2 < ds.length then none
  else
    match r1.dropWhile isPySpace with
    | 'h' :: r3 =>
      let s1 := r3.dropWhile isPySpace
      let ms := s1.takeWhile Char.isDigit
      if 2 < ms.length then none
      else if ms.length = 0 then
        match s1 with
        | 'm' :: _ => some (digitsToNat ds, 0)
        | _ => none
      else
        match (s1.dropWhile Char.isDigit).dropWhile isPySpace with
        | 'm' :: _ => some (digitsToNat ds, digitsToNat ms)
        | _ => none
    | _ => none

/-- Leftmost duration match in a text (re.search semantics). -/
def duration_search : List Char → Option (Nat × Nat)
  | [] => none
  | c :: rest =>
    match duration_search_at (c :: rest) with
    | some r => some r
    | none => duration_search rest

/-- Train type vocabulary of _extract_generic_prices, in source order. -/
def train_vocab : List String :=
  ["AVE", "ALVIA", "AVLO", "Talgo", "Intercity", "Regional", "MD", "Avant"]

/-- Containment of a contiguous character sequence (Python in on strings). -/
def listContains (needle : List Char) : List Char → Bool
  | [] => needle.isEmpty
  | c :: rest => needle.isPrefixOf (c :: rest) || listContains needle rest

/-- First vocabulary entry contained (case insensitively) in the context. -/
def find_train_type (context : List Char) : String :=
  (train_vocab.find? (fun tt => listContains (asciiLower tt.data) (asciiLower context))).getD ""

/-- Join lines with a newline separator (context window construction). -/
def joinLines (ls : List (List Char)) : List Char := List.intercalate ['\n'] ls

/-- Per line pass of _extract_generic_prices: every line whose first euro
amount lies inside the noise bounds becomes a row whose descriptive fields
are tagged heuristically from the seven line context window around it.
The prev argument carries the already visited lines, most recent first. -/
def generic_line_loop (prev : List (List Char)) : List (List Char) → List TrainRow
  | [] => []
  | l :: rest =>
    let stripped := pyStrip l
    match euro_search_line stripped with
    | none => generic_line_loop (l :: prev) rest
    | some price =>
      if price < 5 ∨ 500 < price then generic_line_loop (l :: prev) rest
      else
        let context := joinLines ((prev.take 3).reverse ++ l :: rest.take 3)
        let times := findall_hhmm (context.length + 1) context
        let dur :=
          match duration_search context with
          | some (h, m) => fmtDuration h m
          | none => []
        ⟨price, find_train_type context, times.getD 0 [],
          if 1 < times.length then times.getD 1 [] else [], dur⟩
          :: generic_line_loop (l :: prev) rest

/-- Ascending insertion for rational values (sorted applied to the price set). -/
def insertQ (x : ℚ) : List ℚ → List ℚ
  | [] => [x]
  | y :: ys => if x < y then x :: y :: ys else y :: insertQ x ys

/-- Ascending sort of rational values. -/
def sortQ (l : List ℚ) : List ℚ := l.foldl (fun acc x => insertQ x acc) []

/-- Keep the first occurrence of every value (set construction; together with
the ascending sort this reproduces the Python sorted set of prices, since two
ascending lists with the same distinct elements are equal). -/
def dedupQ (seen : List ℚ) : List ℚ → List ℚ
  | [] => []
  | x :: xs => if x ∈ seen then dedupQ seen xs else x :: dedupQ (x :: seen) xs

/-- Flat fallback of _extract_generic_prices: the set of all in range euro
amounts of the whole text, sorted ascending, limited to five, with empty
descriptive fields. -/
def generic_flat_fallback (text : List Char) : List TrainRow :=
  let raw := finditer_euro (text.length + 1) text
  let filtered := dedupQ [] (raw.filter (fun p => decide (5 < p) && decide (p < 500)))
  ((sortQ filtered).take 5).map (fun p => ⟨p, "", [], [], []⟩)

/-- Embedding of train_scraper._extract_generic_prices. -/
def _extract_generic_prices (text : String) : List TrainRow :=
  let lines := text.data.splitOn '\n'
  let line_prices := generic_line_loop [] lines
  let all_rows := if line_prices = [] then generic_flat_fallback text.data else line_prices
  sortRowsByPrice all_rows

/-! ## train_scraper.py : per provider cabin selection -/

/-- Cabin selection of _scrape_renfe after extraction: no rows give no
result; the turista tier takes the first row of the sorted list; any other
tier takes the first row with its price scaled by the markup factor 1.6
(the rational 8 / 5) and rounded to two decimals. -/
def renfe_select (text cabin : String) : Option TrainRow :=
  match _extract_renfe_results text with
  | [] => none
  | r :: _ =>
    if cabin = "turista" then some r
    else some { r with price := py_round2 (r.price * (8 / 5)) }

/-- Cabin selection of _scrape_trainline (and _scrape_omio) after generic
extraction, with the same tier policy as renfe_select. -/
def trainline_select (text cabin : String) : Option TrainRow :=
  match _extract_generic_prices text with
  | [] => none
  | r :: _ =>
    if cabin = "turista" then some r
    else some { r with price := py_round2 (r.price * (8 / 5)) }

/-! ### Membership and sortedness of the train extraction pipeline -/

theorem mem_insertRowByPrice (a x : TrainRow) (l : List TrainRow) :
    a ∈ insertRowByPrice x l ↔ a = x ∨ a ∈ l := by
  induction l with
  | nil => simp [insertRowByPrice]
  | cons y ys ih =>
    by_cases h : x.price < y.price
    · simp [insertRowByPrice, h]
    · simp [insertRowByPrice, h, ih]
      tauto

theorem mem_sortRows_aux (l acc : List TrainRow) (a : TrainRow) :
    a ∈ l.foldl (fun acc x => insertRowByPrice x acc) acc ↔ a ∈ acc ∨ a ∈ l := by
  induction l generalizing acc with
  | nil => simp
  | cons x xs ih =>
    rw [List.foldl_cons, ih]
    simp [mem_insertRowByPrice]
    tauto

theorem mem_sortRowsByPrice (l : List TrainRow) (a : TrainRow) :
    a ∈ sortRowsByPrice l ↔ a ∈ l := by
  simp [sortRowsByPrice, mem_sortRows_aux]

theorem pairwise_insertRowByPrice (x : TrainRow) (l : List TrainRow)
    (h : l.Pairwise (fun a b => a.price ≤ b.price)) :
    (insertRowByPrice x l).Pairwise (fun a b => a.price ≤ b.price) := by
  induction l with
  | nil => simp [insertRowByPrice]
  | cons y ys ih =>
    rcases List.pairwise_cons.mp h with ⟨hy, hys⟩
    by_cases hx : x.price < y.price
    · rw [insertRowByPrice, if_pos hx]
      refine List.Pairwise.cons ?_ h
      intro b hb
      rcases List.mem_cons.mp hb with rfl | hb
      · exact le_of_lt hx
      · exact le_trans (le_of_lt hx) (hy b hb)
    · rw [insertRowByPrice, if_neg hx]
      refine List.Pairwise.cons ?_ (ih hys)
      intro b hb
      rcases (mem_insertRowByPrice b x ys).mp hb with rfl | hb
      · exact le_of_not_lt hx
      · exact hy b hb

theorem pairwise_sortRows_aux (l acc : List TrainRow)
    (h : acc.Pairwise (fun a b => a.price ≤ b.price)) :
    (l.foldl (fun acc x => insertRowByPrice x acc) acc).Pairwise
      (fun a b => a.price ≤ b.price) := by
  induction l generalizing acc with
  | nil => simpa using h
  | cons x xs ih => exact ih _ (pairwise_insertRowByPrice x acc h)

theorem pairwise_sortRowsByPrice (l : List TrainRow) :
    (sortRowsByPrice l).Pairwise (fun a b => a.price ≤ b.price) :=
  pairwise_sortRows_aux l [] (by simp)

theorem head_min_of_pairwise (r : TrainRow) (rest : List TrainRow)
    (h : (r :: rest).Pairwise (fun a b => a.price ≤ b.price)) :
    ∀ x ∈ r :: rest, r.price ≤ x.price := by
  intro x hx
  rcases List.mem_cons.mp hx with rfl | hx
  · exact le_refl _
  · exact (List.pairwise_cons.mp h).1 x hx

theorem renfe_loop_range (lines : List (List Char)) :
    ∀ r ∈ renfe_loop lines, 5 < r.price ∧ r.price < 500 := by
  induction lines with
  | nil => simp [renfe_loop]
  | cons l rest ih =>
    intro r hr
    simp only [renfe_loop] at hr
    split at hr
    · exact ih r hr
    · split at hr
      · split at hr
        · rcases List.mem_cons.mp hr with rfl | hr
          · simpa using by assumption
          · exact ih r hr
        · exact ih r hr
      · exact ih r hr

theorem renfe_extract_range (text : String) :
    ∀ r ∈ _extract_renfe_results text, 5 < r.price ∧ r.price < 500 := by
  intro r hr
  exact renfe_loop_range _ r ((mem_sortRowsByPrice _ r).mp hr)

theorem generic_line_loop_range (lines prev : List (List Char)) :
    ∀ r ∈ generic_line_loop prev lines, 5 ≤ r.price ∧ r.price ≤ 500 := by
  induction lines generalizing prev with
  | nil => simp [generic_line_loop]
  | cons l rest ih =>
    intro r hr
    simp only [generic_line_loop] at hr
    split at hr
    · exact ih _ r hr
    · split at hr
      · exact ih _ r hr
      · rcases List.mem_cons.mp hr with rfl | hr
        · rename_i price hsearch hrange
          push_neg at hrange
          exact ⟨hrange.1, hrange.2⟩
        · exact ih _ r hr

theorem mem_insertQ (a x : ℚ) (l : List ℚ) : a ∈ insertQ x l ↔ a = x ∨ a ∈ l := by
  induction l with
  | nil => simp [insertQ]
  | cons y ys ih =>
    by_cases h : x < y
    · simp [insertQ, h]
    · simp [insertQ, h, ih]
      tauto

theorem mem_sortQ_aux (l acc : List ℚ) (a : ℚ) :
    a ∈ l.foldl (fun acc x => insertQ x acc) acc ↔ a ∈ acc ∨ a ∈ l := by
  induction l generalizing acc with
  | nil => simp
  | cons x xs ih =>
    rw [List.foldl_cons, ih]
    simp [mem_insertQ]
    tauto

theorem mem_sortQ (l : List ℚ) (a : ℚ) : a ∈ sortQ l ↔ a ∈ l := by
  simp [sortQ, mem_sortQ_aux]

theorem mem_dedupQ (seen l : List ℚ) (a : ℚ) : a ∈ dedupQ seen l → a ∈ l := by
  induction l generalizing seen with
  | nil => simp [dedupQ]
  | cons x xs ih =>
    intro ha
    simp only [dedupQ] at ha
    split at ha
    · exact List.mem_cons_of_mem _ (ih _ ha)
    · rcases List.mem_cons.mp ha with rfl | ha
      · exact List.mem_cons_self _ _
      · exact List.mem_cons_of_mem _ (ih _ ha)

theorem generic_flat_fallback_range (text : List Char) :
    ∀ r ∈ generic_flat_fallback text, 5 < r.price ∧ r.price < 500 := by
  intro r hr
  simp only [generic_flat_fallback, List.mem_map] at hr
  obtain ⟨p, hp, rfl⟩ := hr
  have hp2 := (mem_sortQ _ p).mp (List.mem_of_mem_take hp)
  have hp3 := List.mem_filter.mp (mem_dedupQ _ _ p hp2)
  have := hp3.2
  simp at this
  exact this

theorem generic_extract_range (text : String) :
    ∀ r ∈ _extract_generic_prices text, 5 ≤ r.price ∧ r.price ≤ 500 := by
  intro r hr
  simp only [_extract_generic_prices] at hr
  rw [mem_sortRowsByPrice] at hr
  split at hr
  · rcases generic_flat_fallback_range _ r hr with ⟨h1, h2⟩
    exact ⟨le_of_lt h1, le_of_lt h2⟩
  · exact generic_line_loop_range _ _ r hr

theorem generic_extract_flat_strict (text : String)
    (h : generic_line_loop [] (text.data.splitOn '\n') = []) :
    ∀ r ∈ _extract_generic_prices text, 5 < r.price ∧ r.price < 500 := by
  intro r hr
  simp only [_extract_generic_prices, h] at hr
  rw [mem_sortRowsByPrice] at hr
  simp at hr
  exact generic_flat_fallback_range _ r hr

/-! ### Claim C6 -/

/-- C6: On the structured page text consisting of the consecutive lines
07:14 h, 2 horas 22 minutos, 09:36 h, 34,70 with the euro sign, the
structured extractor yields the candidate price 34.70 (the rational
3470 / 100 = 347 / 10), departure 07:14, arrival 09:36, duration 2h 22m as
the first result (a second overlapping row starts at the arrival marker,
since the loop advances one line at a time). In general every departure
marker opens a forward scan over the following 13 lines (the row spans at
most 14 lines including the marker), only the first duration phrase is
recorded, the next clock time becomes the arrival, the first terminated
price token ends the row, and rows without a parsed in range price are
discarded, so every returned row carries a parsed price. -/
theorem c6_structured_train_extraction :
    _extract_renfe_results "07:14 h\n2 horas 22 minutos\n09:36 h\n34,70 €"
      = [⟨mkRat 3470 100, "", "07:14".data, "09:36".data, "2h 22m".data⟩,
         ⟨mkRat 3470 100, "", "09:36".data, [], []⟩]
    ∧ (mkRat 3470 100 : ℚ) = 347 / 10
    ∧ (∀ text : String, ∀ r ∈ _extract_renfe_results text, 5 < r.price ∧ r.price < 500) := by
  refine ⟨by decide, by norm_num [Rat.mkRat_eq_div], renfe_extract_range⟩

/-- Witness for C6: the general part applied to the concrete example text and
its first returned row. -/
theorem c6_structured_train_extraction_witness :
    5 < (mkRat 3470 100 : ℚ) ∧ (mkRat 3470 100 : ℚ) < 500 :=
  c6_structured_train_extraction.2.2
    "07:14 h\n2 horas 22 minutos\n09:36 h\n34,70 €"
    ⟨mkRat 3470 100, "", "07:14".data, "09:36".data, "2h 22m".data⟩ (by decide)

/-! ### Claim C7 -/

/-- C7 counterexample: on a structured page with three priced rows
(10, 20 and 30 euro), the Renfe turista selection returns exactly one row,
the single cheapest, although three extracted rows are available; the claim
that the structured strategy returns the 3 cheapest results is therefore
false (one returned row is not the three cheapest rows). -/
theorem c7_counterexample :
    _extract_renfe_results "07:00 h\n10,00 €\n08:00 h\n20,00 €\n09:00 h\n30,00 €"
      = [⟨mkRat 1000 100, "", "07:00".data, [], []⟩,
         ⟨mkRat 2000 100, "", "08:00".data, [], []⟩,
         ⟨mkRat 3000 100, "", "09:00".data, [], []⟩]
    ∧ renfe_select "07:00 h\n10,00 €\n08:00 h\n20,00 €\n09:00 h\n30,00 €" "turista"
      = some ⟨mkRat 1000 100, "", "07:00".data, [], []⟩
    ∧ ([⟨mkRat 1000 100, "", "07:00".data, [], []⟩] : List TrainRow)
      ≠ [⟨mkRat 1000 100, "", "07:00".data, [], []⟩,
         ⟨mkRat 2000 100, "", "08:00".data, [], []⟩,
         ⟨mkRat 3000 100, "", "09:00".data, [], []⟩] := by
  refine ⟨by decide, by decide, by decide⟩

/-- C7 amended: for the base tier (turista) both the structured (Renfe) and
the generic (Trainline / Omio) strategies return the single cheapest
extracted result, not the 3 cheapest; in both strategies the extracted
results are sorted ascending by price before selection, so the returned row
has minimal price among all extracted rows. -/
theorem c7_amended_cheapest_selection (text : String) :
    renfe_select text "turista" = (_extract_renfe_results text).head?
    ∧ (∀ r, (_extract_renfe_results text).head? = some r →
        ∀ x ∈ _extract_renfe_results text, r.price ≤ x.price)
    ∧ trainline_select text "turista" = (_extract_generic_prices text).head?
    ∧ (∀ r, (_extract_generic_prices text).head? = some r →
        ∀ x ∈ _extract_generic_prices text, r.price ≤ x.price) := by
  refine ⟨?_, ?_, ?_, ?_⟩
  · rw [renfe_select]
    cases _extract_renfe_results text with
    | nil => rfl
    | cons r rest => simp
  · intro r hr
    cases h : _extract_renfe_results text with
    | nil => simp [h] at hr
    | cons y rest =>
      rw [h] at hr
      simp at hr
      subst hr
      have := pairwise_sortRowsByPrice (renfe_loop (text.data.splitOn '\n'))
      rw [show sortRowsByPrice (renfe_loop (text.data.splitOn '\n'))
            = _extract_renfe_results text from rfl, h] at this
      exact head_min_of_pairwise _ _ this
  · rw [trainline_select]
    cases _extract_generic_prices text with
    | nil => rfl
    | cons r rest => simp
  · intro r hr
    cases h : _extract_generic_prices text with
    | nil => simp [h] at hr
    | cons y rest =>
      rw [h] at hr
      simp at hr
      subst hr
      have h2 : (_extract_generic_prices text).Pairwise
          (fun a b => a.price ≤ b.price) := by
        rw [_extract_generic_prices]
        exact pairwise_sortRowsByPrice _
      rw [h] at h2
      exact head_min_of_pairwise _ _ h2

/-- Witness for C7 at the three row example: the selected row is the head of
the sorted extraction and its price is minimal among the extracted rows. -/
theorem c7_amended_cheapest_selection_witness :
    (⟨mkRat 1000 100, "", "07:00".data, [], []⟩ : TrainRow).price
      ≤ (⟨mkRat 3000 100, "", "09:00".data, [], []⟩ : TrainRow).price :=
  (c7_amended_cheapest_selection
      "07:00 h\n10,00 €\n08:00 h\n20,00 €\n09:00 h\n30,00 €").2.1
    ⟨mkRat 1000 100, "", "07:00".data, [], []⟩ (by decide)
    ⟨mkRat 3000 100, "", "09:00".data, [], []⟩ (by decide)

/-! ### Claim C8 -/

/-- C8 counterexample: the generic contextual strategy keeps a price of
exactly 500 euro (its guard discards only prices strictly below 5 or
strictly above 500), so the claim that no returned candidate has price
at least 500 is false: the page text 500,00 with the euro sign yields a
candidate priced exactly 500. -/
theorem c8_counterexample :
    _extract_generic_prices "500,00 €" = [⟨mkRat 50000 100, "", [], [], []⟩]
    ∧ (mkRat 50000 100 : ℚ) = 500
    ∧ ¬ ((500 : ℚ) < 500) := by
  refine ⟨by decide, by decide, by decide⟩

/-- C8 amended: the structured (Renfe) strategy and the flat deduplicated
fallback keep only prices strictly between 5 and 500, while the generic
contextual strategy discards prices strictly below 5 or strictly above 500
(so candidates priced exactly 5 or exactly 500 can be returned by it); in
every case no returned candidate has price below 5 or above 500. -/
theorem c8_amended_noise_bounds (text : String) :
    (∀ r ∈ _extract_renfe_results text, 5 < r.price ∧ r.price < 500)
    ∧ (∀ r ∈ _extract_generic_prices text, 5 ≤ r.price ∧ r.price ≤ 500)
    ∧ (generic_line_loop [] (text.data.splitOn '\n') = [] →
        ∀ r ∈ _extract_generic_prices text, 5 < r.price ∧ r.price < 500) :=
  ⟨renfe_extract_range text, generic_extract_range text,
    generic_extract_flat_strict text⟩

/-- Witness for C8: on a page whose per line pass finds nothing usable
(the first amount of the only line is the noise price 1), the flat fallback
returns the in range amount 50, and the strict bounds apply to it. -/
theorem c8_amended_noise_bounds_witness :
    5 < (mkRat 50 1 : ℚ) ∧ (mkRat 50 1 : ℚ) < 500 :=
  (c8_amended_noise_bounds "1 € 50 €").2.2 (by decide)
    ⟨mkRat 50 1, "", [], [], []⟩ (by decide)

/-! ## utils.py : normalize

The source applies the NFKD decomposition, removes combining marks and
lowercases. The embedding folds the accented Latin letters this pipeline
encounters to their base letter and lowercases, which agrees with the source
on every text made of Latin letters, digits, punctuation and the currency
signs used by the scrapers. -/

/-- Accent folding table (NFKD decomposition with marks removed). -/
def stripAccent (c : Char) : Char :=
  match c with
  | 'á' => 'a' | 'à' => 'a' | 'ä' => 'a' | 'â' => 'a'
  | 'é' => 'e' | 'è' => 'e' | 'ë' => 'e' | 'ê' => 'e'
  | 'í' => 'i' | 'ì' => 'i' | 'ï' => 'i' | 'î' => 'i'
  | 'ó' => 'o' | 'ò' => 'o' | 'ö' => 'o' | 'ô' => 'o'
  | 'ú' => 'u' | 'ù' => 'u' | 'ü' => 'u' | 'û' => 'u'
  | 'ñ' => 'n' | 'ç' => 'c'
  | 'Á' => 'A' | 'À' => 'A' | 'Ä' => 'A' | 'Â' => 'A'
  | 'É' => 'E' | 'È' => 'E' | 'Ë' => 'E' | 'Ê' => 'E'
  | 'Í' => 'I' | 'Ì' => 'I' | 'Ï' => 'I' | 'Î' => 'I'
  | 'Ó' => 'O' | 'Ò' => 'O' | 'Ö' => 'O' | 'Ô' => 'O'
  | 'Ú' => 'U' | 'Ù' => 'U' | 'Ü' => 'U' | 'Û' => 'U'
  | 'Ñ' => 'N' | 'Ç' => 'C'
  | other => other

/-- Embedding of utils.normalize: strip accents, lowercase. -/
def normalize (l : List Char) : List Char := l.map (fun c => (stripAccent c).toLower)

/-! ## flight_scraper.py : exchange table and conversion -/

/-- Embedding of flight_scraper.EXCHANGE_TO_EUR (approximate rates; the
decimal literals of the source are the exact rationals below). -/
def EXCHANGE_TO_EUR : List (String × ℚ) :=
  [("EUR", 1), ("USD", mkRat 92 100), ("GBP", mkRat 117 100),
   ("MXN", mkRat 47 1000), ("COP", mkRat 23 100000), ("BRL", mkRat 17 100)]

/-- Rate lookup with default 1.0 (EXCHANGE_TO_EUR.get(currency, 1.0)). -/
def rate_lookup (currency : String) : ℚ :=
  ((EXCHANGE_TO_EUR.find? (fun p => p.1 == currency)).map Prod.snd).getD 1

/-- Embedding of flight_scraper._to_eur: multiply by the table rate and round
to two decimals. -/
def _to_eur (price : ℚ) (currency : String) : ℚ := py_round2 (price * rate_lookup currency)

/-! ## flight_scraper.py : _extract_explore_data in the reference currency

Only the reference currency mode (currency EUR) is embedded: in that mode
both price searches of the source (the EUR pattern tried first and the
locale pattern) are the same pattern, and no conversion applies. -/

/-- Character class of the EUR amount pattern: digits and dots. -/
def isDigitOrDot (c : Char) : Bool := c.isDigit || c == '.'

/-- Search for the EUR amount pattern (a run of digits and dots followed by
optional spaces and the euro sign); positions are tried left to right and at
each position the maximal run is the only greedy candidate. Returns the
captured run. -/
def eur_flight_search : List Char → Option (List Char)
  | [] => none
  | c :: rest =>
    let run := (c :: rest).takeWhile isDigitOrDot
    if run.length = 0 then eur_flight_search rest
    else
      match ((c :: rest).dropWhile isDigitOrDot).dropWhile isPySpace with
      | '€' :: _ => some run
      | _ => eur_flight_search rest

/-- EUR amount parse of the source: remove the dots (thousands separators)
and read the remaining digits. A captured run with no digit at all makes the
Python float call raise, modeled as none. -/
def parse_eur_flight (grp : List Char) : Option ℚ :=
  let digits := grp.filter (fun c => !(c == '.'))
  if digits.isEmpty then none else some ((digitsToNat digits : ℚ))

/-- Stop count pattern: digits, optional spaces, one of the stop words in
four languages, case insensitively, matched at the start of the line. -/
def stops_match (l : List Char) : Option Nat :=
  let ds := l.takeWhile Char.isDigit
  if ds.length = 0 then none
  else
    let low := asciiLower ((l.dropWhile Char.isDigit).dropWhile isPySpace)
    if "escala".data.isPrefixOf low || "stop".data.isPrefixOf low
        || "stopp".data.isPrefixOf low || "parada".data.isPrefixOf low then
      some (digitsToNat ds)
    else none

/-- Nonstop marker search: one of the direct words, case insensitively,
anywhere in the line. -/
def direct_search (l : List Char) : Bool :=
  let low := asciiLower l
  listContains "directo".data low || listContains "nonstop".data low
    || listContains "ohne umstieg".data low

/-- German duration pattern (digits, optional spaces, Std., optional spaces,
optional digits, optional spaces, Min) matched at the start of the line. -/
def duration_match_de (l : List Char) : Option (Nat × Nat) :=
  let ds := l.takeWhile Char.isDigit
  if ds.length = 0 ∨ 2 < ds.length then none
  else
    match (l.dropWhile Char.isDigit).dropWhile isPySpace with
    | 'S' :: 't' :: 'd' :: '.' :: r3 =>
      let s1 := r3.dropWhile isPySpace
      let ms := s1.takeWhile Char.isDigit
      if 2 < ms.length then none
      else if ms.length = 0 then
        match s1 with
        | 'M' :: 'i' :: 'n' :: _ => some (digitsToNat ds, 0)
        | _ => none
      else
        match (s1.dropWhile Char.isDigit).dropWhile isPySpace with
        | 'M' :: 'i' :: 'n' :: _ => some (digitsToNat ds, digitsToNat ms)
        | _ => none
    | _ => none

/-- Accumulated window state of the destination line scan. -/
structure WState where
  price : Option ℚ
  stops : Nat
  duration_min : Nat
  duration : List Char
deriving DecidableEq, Repr

/-- Checks applied to a window line after the price search: stop count,
nonstop marker, duration (Spanish then German form); a duration match
overwrites the previously stored one, as in the source. -/
def flight_window_rest (st : WState) (next_line : List Char) : WState :=
  match stops_match next_line with
  | some n => { st with stops := n }
  | none =>
    if direct_search next_line then { st with stops := 0 }
    else
      match duration_search_at next_line with
      | some (h, m) => { st with duration_min := h * 60 + m, duration := fmtDuration h m }
      | none =>
        match duration_match_de next_line with
        | some (h, m) => { st with duration_min := h * 60 + m, duration := fmtDuration h m }
        | none => st

/-- One window line: the price search runs first and only the first parsed
amount is kept (a later amount line falls through to the other checks);
a captured amount with no digits aborts the extraction (none). -/
def flight_window_step (st : WState) (rawLine : List Char) : Option WState :=
  let next_line := pyStrip rawLine
  match eur_flight_search next_line with
  | some grp =>
    if st.price = none then
      match parse_eur_flight grp with
      | none => none
      | some v => some { st with price := some v }
    else some (flight_window_rest st next_line)
  | none => some (flight_window_rest st next_line)

/-- Scan of the bounded window of lines after a destination line. -/
def flight_window_scan : WState → List (List Char) → Option WState
  | st, [] => some st
  | st, l :: rest =>
    match flight_window_step st l with
    | none => none
    | some st2 => flight_window_scan st2 rest

/-- Flight candidate dict built by _extract_explore_data. -/
structure FlightCand where
  price : ℚ
  price_eur : ℚ
  currency : String
  stops : Nat
  duration_min : Nat
  duration : List Char
  airline : String
deriving DecidableEq, Repr

/-- Line loop of _extract_explore_data (reference currency): the first
destination line whose 5 line window yields an amount above the noise floor
produces the single candidate and stops the whole scan; in the reference
currency the converted price equals the parsed price. -/
def explore_loop_eur (dnorm : List Char) : List (List Char) → Option (List FlightCand)
  | [] => some []
  | l :: rest =>
    let stripped := pyStrip l
    if !(listContains dnorm (normalize stripped)) then explore_loop_eur dnorm rest
    else
      match flight_window_scan ⟨none, 0, 0, []⟩ (rest.take 5) with
      | none => none
      | some st =>
        match st.price with
        | some p =>
          if 10 < p then some [⟨p, p, "EUR", st.stops, st.duration_min, st.duration, ""⟩]
          else explore_loop_eur dnorm rest
        | none => explore_loop_eur dnorm rest

/-- Embedding of flight_scraper._extract_explore_data with currency EUR.
The none result models the ValueError the source raises when a captured
amount contains no digit; it propagates out of the extractor. -/
def _extract_explore_data (page_text destination_name : String) : Option (List FlightCand) :=
  explore_loop_eur (normalize destination_name.data) (page_text.data.splitOn '\n')

/-! ### Claim C5 -/

theorem explore_loop_spec (dnorm : List Char) (lines : List (List Char)) :
    ∀ res, explore_loop_eur dnorm lines = some res →
      res.length ≤ 1 ∧ ∀ c ∈ res, 10 < c.price := by
  induction lines with
  | nil =>
    intro res h
    simp only [explore_loop_eur] at h
    injection h with h2
    subst h2
    simp
  | cons l rest ih =>
    intro res h
    simp only [explore_loop_eur] at h
    split at h
    · exact ih res h
    · split at h
      · simp at h
      · split at h
        · split at h
          · injection h with h2
            subst h2
            refine ⟨by simp, ?_⟩
            intro c hc
            rcases List.mem_singleton.mp hc with rfl
            simpa using by assumption
          · exact ih res h
        · exact ih res h

/-- C5: In the reference currency EUR, a destination line followed within the
5 line window by the amount 1.197 with the euro sign yields the single
candidate with price 1197 (the dot is a thousands separator), and in general
a candidate is accepted only when its price exceeds 10, after which the whole
page scan stops, so any successful extraction returns at most one candidate
and every returned candidate has price above 10. The concrete page also shows
that a destination line whose window amount is at most 10 (the line with 8
euro) does not stop the scan, and that lines after the accepted candidate
(15 euro next to another destination mention) are never reached. -/
theorem c5_flight_eur_extraction :
    _extract_explore_data
        "Vuelos a Paris\n8 €\nParis ida y vuelta\n2 escalas\n12h 30m\n1.197 €\nParis otra vez\n15 €"
        "París"
      = some [⟨1197, 1197, "EUR", 2, 750, "12h 30m".data, ""⟩]
    ∧ (∀ text dest : String, ∀ res, _extract_explore_data text dest = some res →
        res.length ≤ 1 ∧ ∀ c ∈ res, 10 < c.price) := by
  refine ⟨by decide, ?_⟩
  intro text dest res h
  exact explore_loop_spec _ _ res h

/-- Witness for C5: the general bound applied to the concrete page. -/
theorem c5_flight_eur_extraction_witness :
    ([⟨1197, 1197, "EUR", 2, 750, "12h 30m".data, ""⟩] : List FlightCand).length ≤ 1 ∧
      ∀ c ∈ ([⟨1197, 1197, "EUR", 2, 750, "12h 30m".data, ""⟩] : List FlightCand),
        10 < c.price :=
  c5_flight_eur_extraction.2
    "Vuelos a Paris\n8 €\nParis ida y vuelta\n2 escalas\n12h 30m\n1.197 €\nParis otra vez\n15 €"
    "París" _ (by decide)

/-! ### Claim C10 -/

/-- C10: For every price and every currency code absent from the static
exchange table (any code other than EUR, USD, GBP, MXN, COP, BRL), the
conversion applies the default rate 1.0, so the converted price equals the
price rounded to two decimals: unknown currencies are treated as already in
EUR rather than rejected. -/
theorem c10_unknown_currency_rate (p : ℚ) (c : String)
    (h : c ∉ ["EUR", "USD", "GBP", "MXN", "COP", "BRL"]) :
    rate_lookup c = 1 ∧ _to_eur p c = py_round2 (p * 1) ∧ _to_eur p c = py_round2 p := by
  simp only [List.mem_cons, List.not_mem_nil, or_false, not_or] at h
  obtain ⟨h1, h2, h3, h4, h5, h6⟩ := h
  have hr : rate_lookup c = 1 := by
    simp only [rate_lookup, EXCHANGE_TO_EUR, List.find?]
    rw [show (("EUR" : String) == c) = false from beq_eq_false_iff_ne.mpr (Ne.symm h1),
        show (("USD" : String) == c) = false from beq_eq_false_iff_ne.mpr (Ne.symm h2),
        show (("GBP" : String) == c) = false from beq_eq_false_iff_ne.mpr (Ne.symm h3),
        show (("MXN" : String) == c) = false from beq_eq_false_iff_ne.mpr (Ne.symm h4),
        show (("COP" : String) == c) = false from beq_eq_false_iff_ne.mpr (Ne.symm h5),
        show (("BRL" : String) == c) = false from beq_eq_false_iff_ne.mpr (Ne.symm h6)]
    rfl
  exact ⟨hr, by rw [_to_eur, hr], by rw [_to_eur, hr, mul_one]⟩

/-- Witness for C10 at the unknown code CHF and the price 123.45. -/
theorem c10_unknown_currency_rate_witness :
    _to_eur (mkRat 12345 100) "CHF" = py_round2 (mkRat 12345 100) :=
  (c10_unknown_currency_rate (mkRat 12345 100) "CHF" (by decide)).2.2

/-! ## scrapers/base.py : PriceResult -/

/-- Embedding of base.PriceResult. The timestamp is wall clock input of the
environment, irrelevant to every claim, and is fixed to the empty string. -/
structure PriceResult where
  timestamp : String := ""
  route_id : String := ""
  transport_type : String := ""
  cabin_class : String := ""
  price : Option ℚ := none
  currency : String := "EUR"
  airline : String := ""
  stops : Nat := 0
  duration : String := ""
  train_type : String := ""
  departure_time : String := ""
  arrival_time : String := ""
  week_start : String := ""
  travel_date : String := ""
deriving DecidableEq, Repr

/-- Embedding of PriceResult.has_price: a price is present and positive. -/
def PriceResult.has_price (r : PriceResult) : Bool :=
  match r.price with
  | some p => decide (0 < p)
  | none => false

/-! ## flight_scraper.py : _scrape_with_geo (geo profile multiplexer)

The browser interaction of each profile is summarized by its outcome: an
exception anywhere in the profile block (failure), no extracted result
(noData), or the extracted candidate dict (found). The reduction over the
outcomes is the loop body of the source unchanged. -/

/-- Outcome of one geo profile attempt. -/
inductive GeoOutcome where
  | failure : GeoOutcome
  | noData : GeoOutcome
  | found : FlightCand → GeoOutcome
deriving DecidableEq, Repr

/-- Loop body of _scrape_with_geo: exceptions and missing results leave the
best triple unchanged; a result whose converted price is at most 100 is
skipped as a parse artifact; otherwise a strictly smaller converted price
replaces the best (price in EUR, profile id, candidate). -/
def geo_step (best : Option (ℚ × String × FlightCand)) (g : String × GeoOutcome) :
    Option (ℚ × String × FlightCand) :=
  match g.2 with
  | .failure => best
  | .noData => best
  | .found r =>
    if r.price_eur ≤ 100 then best
    else
      match best with
      | none => some (r.price_eur, g.1, r)
      | some b => if r.price_eur < b.1 then some (r.price_eur, g.1, r) else best

/-- Reduction of _scrape_with_geo over the profile outcomes in order. -/
def geo_reduce (outcomes : List (String × GeoOutcome)) : Option (ℚ × String × FlightCand) :=
  outcomes.foldl geo_step none

/-- Usable profile results: the found candidates above the 100 EUR floor,
with their converted price and profile id. -/
def geo_usable (outcomes : List (String × GeoOutcome)) : List (ℚ × String × FlightCand) :=
  outcomes.filterMap (fun g =>
    match g.2 with
    | .found r => if r.price_eur ≤ 100 then none else some (r.price_eur, g.1, r)
    | _ => none)

/-- Embedding of the tail of _scrape_with_geo: the best triple becomes a
priced observation, and no usable price becomes an unpriced observation. -/
def _scrape_with_geo (outcomes : List (String × GeoOutcome))
    (route_id cabin dep_date : String) : PriceResult :=
  match geo_reduce outcomes with
  | some b =>
    { route_id := route_id, transport_type := "flight", cabin_class := asciiUpper cabin,
      price := some b.1, currency := "EUR", airline := b.2.2.airline,
      stops := b.2.2.stops, duration := ⟨b.2.2.duration⟩,
      week_start := dep_date, travel_date := dep_date }
  | none =>
    { route_id := route_id, transport_type := "flight", cabin_class := asciiUpper cabin,
      week_start := dep_date, travel_date := dep_date }

/-! ### Minimum fold lemmas for the geo reduction -/

/-- Pure minimum step over usable triples (the else branch of geo_step). -/
def min_step (best : Option (ℚ × String × FlightCand)) (x : ℚ × String × FlightCand) :
    Option (ℚ × String × FlightCand) :=
  match best with
  | none => some x
  | some b => if x.1 < b.1 then some x else best

theorem geo_reduce_eq_min_fold (outcomes : List (String × GeoOutcome))
    (acc : Option (ℚ × String × FlightCand)) :
    outcomes.foldl geo_step acc = (geo_usable outcomes).foldl min_step acc := by
  induction outcomes generalizing acc with
  | nil => simp [geo_usable]
  | cons g gs ih =>
    rcases g with ⟨gid, out⟩
    cases out with
    | failure => simp [geo_usable, List.filterMap_cons, geo_step, ih]
    | noData => simp [geo_usable, List.filterMap_cons, geo_step, ih]
    | found r =>
      by_cases hle : r.price_eur ≤ 100
      · simp [geo_usable, List.filterMap_cons, geo_step, hle, ih]
      · simp only [List.foldl_cons, geo_usable, List.filterMap_cons, geo_step, if_neg hle]
        rw [ih]
        rfl

theorem min_step_isSome (acc : Option (ℚ × String × FlightCand)) (x : ℚ × String × FlightCand) :
    ∃ y, min_step acc x = some y := by
  cases acc with
  | none => exact ⟨x, rfl⟩
  | some b =>
    by_cases h : x.1 < b.1
    · exact ⟨x, by simp [min_step, h]⟩
    · exact ⟨b, by simp [min_step, h]⟩

theorem min_fold_some (l : List (ℚ × String × FlightCand)) (b : ℚ × String × FlightCand) :
    ∃ y, l.foldl min_step (some b) = some y := by
  induction l generalizing b with
  | nil => exact ⟨b, rfl⟩
  | cons x xs ih =>
    rw [List.foldl_cons]
    obtain ⟨y, hy⟩ := min_step_isSome (some b) x
    rw [hy]
    exact ih y

theorem min_fold_none_iff (l : List (ℚ × String × FlightCand)) :
    l.foldl min_step none = none ↔ l = [] := by
  cases l with
  | nil => simp
  | cons x xs =>
    rw [List.foldl_cons]
    obtain ⟨y, hy⟩ := min_fold_some xs x
    rw [show min_step none x = some x from rfl, hy]
    simp

theorem min_fold_spec (l : List (ℚ × String × FlightCand))
    (acc : Option (ℚ × String × FlightCand)) :
    ∀ y, l.foldl min_step acc = some y →
      (acc = some y ∨ y ∈ l) ∧ (∀ x ∈ l, y.1 ≤ x.1) ∧ (∀ b, acc = some b → y.1 ≤ b.1) := by
  induction l generalizing acc with
  | nil =>
    intro y h
    simp only [List.foldl_nil] at h
    refine ⟨Or.inl h, by simp, ?_⟩
    intro b hb
    rw [hb] at h
    injection h with h
    rw [h]
  | cons x xs ih =>
    intro y h
    rw [List.foldl_cons] at h
    obtain ⟨hmem, hxs, hacc⟩ := ih (min_step acc x) y h
    cases acc with
    | none =>
      simp only [min_step] at hmem hacc
      have hyx : y.1 ≤ x.1 := hacc x rfl
      refine ⟨?_, ?_, fun b hb => by cases hb⟩
      · rcases hmem with hm | hm
        · injection hm with hm
          exact Or.inr (by rw [← hm]; exact List.mem_cons_self x xs)
        · exact Or.inr (List.mem_cons_of_mem x hm)
      · intro z hz
        rcases List.mem_cons.mp hz with rfl | hz
        · exact hyx
        · exact hxs z hz
    | some b0 =>
      by_cases hlt : x.1 < b0.1
      · simp only [min_step, if_pos hlt] at hmem hacc
        have hyx : y.1 ≤ x.1 := hacc x rfl
        refine ⟨?_, ?_, ?_⟩
        · rcases hmem with hm | hm
          · injection hm with hm
            exact Or.inr (by rw [← hm]; exact List.mem_cons_self x xs)
          · exact Or.inr (List.mem_cons_of_mem x hm)
        · intro z hz
          rcases List.mem_cons.mp hz with rfl | hz
          · exact hyx
          · exact hxs z hz
        · intro b hb
          injection hb with hb
          subst hb
          exact le_trans hyx (le_of_lt hlt)
      · simp only [min_step, if_neg hlt] at hmem hacc
        have hyb : y.1 ≤ b0.1 := hacc b0 rfl
        refine ⟨?_, ?_, ?_⟩
        · rcases hmem with hm | hm
          · exact Or.inl hm
          · exact Or.inr (List.mem_cons_of_mem x hm)
        · intro z hz
          rcases List.mem_cons.mp hz with rfl | hz
          · exact le_trans hyb (le_of_not_lt hlt)
          · exact hxs z hz
        · intro b hb
          injection hb with hb
          subst hb
          exact hyb

theorem mem_geo_usable (outcomes : List (String × GeoOutcome)) :
    ∀ x ∈ geo_usable outcomes, x.1 = x.2.2.price_eur ∧ 100 < x.1 := by
  intro x hx
  rcases List.mem_filterMap.mp hx with ⟨g, _, hg⟩
  rcases g with ⟨gid, out⟩
  cases out with
  | failure => simp at hg
  | noData => simp at hg
  | found r =>
    by_cases hle : r.price_eur ≤ 100
    · simp [hle] at hg
    · simp only [if_neg hle] at hg
      injection hg with hg
      subst hg
      exact ⟨rfl, lt_of_not_le hle⟩

/-! ### Claim C4 -/

/-- C4: For a flight query fanned out over the geo profiles, the multiplexer
ignores every profile price whose converted value is at most 100 EUR, the
reduction yields none exactly when no profile has a usable price (and the
observation is then unpriced, never an error, since the reduction is a total
function), a profile raising an exception is transparent to the reduction
(the remaining profiles are still tried), and a successful reduction returns
a usable triple whose converted price is minimal among all usable profiles,
recording the profile that produced it. The price of the produced
observation is exactly the reduced best price. -/
theorem c4_geo_multiplexer (outcomes : List (String × GeoOutcome))
    (rid cabin dep : String) :
    (geo_reduce outcomes = none ↔ geo_usable outcomes = [])
    ∧ (∀ p g r, geo_reduce outcomes = some (p, g, r) →
        (p, g, r) ∈ geo_usable outcomes ∧ p = r.price_eur ∧ 100 < p
        ∧ ∀ x ∈ geo_usable outcomes, p ≤ x.1)
    ∧ (∀ pre post g, geo_reduce (pre ++ (g, GeoOutcome.failure) :: post)
        = geo_reduce (pre ++ post))
    ∧ (_scrape_with_geo outcomes rid cabin dep).price
        = (geo_reduce outcomes).map (fun b => b.1) := by
  refine ⟨?_, ?_, ?_, ?_⟩
  · rw [geo_reduce, geo_reduce_eq_min_fold]
    exact min_fold_none_iff _
  · intro p g r h
    rw [geo_reduce, geo_reduce_eq_min_fold] at h
    obtain ⟨hmem, hmin, _⟩ := min_fold_spec _ none (p, g, r) h
    rcases hmem with hm | hm
    · cases hm
    · obtain ⟨he, hgt⟩ := mem_geo_usable outcomes _ hm
      exact ⟨hm, he, hgt, hmin⟩
  · intro pre post g
    rw [geo_reduce, geo_reduce, List.foldl_append, List.foldl_cons, List.foldl_append]
    rfl
  · rw [_scrape_with_geo]
    cases geo_reduce outcomes with
    | none => rfl
    | some b => rfl

/-- Witness for C4 at concrete profile outcomes: the ES profile sees 450 EUR,
the US profile sees 410 USD already converted to 377.2 EUR, the MX profile
raises; the reduction selects the US triple, whose converted price exceeds
the 100 EUR floor and is minimal among the usable profiles. -/
theorem c4_geo_multiplexer_witness :
    100 < (mkRat 3772 10 : ℚ) ∧
      ∀ x ∈ geo_usable
          [("ES", GeoOutcome.found ⟨450, 450, "EUR", 0, 0, [], ""⟩),
           ("US", GeoOutcome.found ⟨410, mkRat 3772 10, "USD", 0, 0, [], ""⟩),
           ("MX", GeoOutcome.failure)],
        (mkRat 3772 10 : ℚ) ≤ x.1 := by
  have h := (c4_geo_multiplexer
      [("ES", GeoOutcome.found ⟨450, 450, "EUR", 0, 0, [], ""⟩),
       ("US", GeoOutcome.found ⟨410, mkRat 3772 10, "USD", 0, 0, [], ""⟩),
       ("MX", GeoOutcome.failure)] "R" "economy" "2026-01-05").2.1
      (mkRat 3772 10) "US" ⟨410, mkRat 3772 10, "USD", 0, 0, [], ""⟩ (by decide)
  exact ⟨h.2.2.1, h.2.2.2⟩

/-! ## alerts.py : per cabin alert evaluation

check_flight_alerts and check_train_alerts share the same per cabin logic
(filter to priced observations of the cabin, take the minimum price
observation, compare with the per cabin threshold); only the notification
wording differs. The shared logic is embedded once below, and the emitted
signal carries the data cited by the notifications. -/

/-- Threshold lookup route.alerts.get(key, default). -/
def alerts_get (alerts : List (String × ℚ)) (key : String) (default : ℚ) : ℚ :=
  ((alerts.find? (fun p => p.1 == key)).map Prod.snd).getD default

/-- Price key used by the Python min call (priced rows always carry a price). -/
def priceKey (r : PriceResult) : ℚ := r.price.getD 0

/-- Signal emitted for one cabin: a buy alert citing the winning observation
and the threshold, or an informational gap report with the printed amount. -/
inductive AlertSignal where
  | buy (best : PriceResult) (threshold : ℚ)
  | gap (best : PriceResult) (threshold : ℚ) (amount : ℚ)
deriving DecidableEq, Repr

/-- Python min over the cabin results by price key (first minimum wins). -/
def min_by_price (l : List PriceResult) : Option PriceResult :=
  l.foldl (fun acc r =>
    match acc with
    | none => some r
    | some b => if priceKey r < priceKey b then some r else acc) none

/-- Per cabin body of check_flight_alerts / check_train_alerts. -/
def check_cabin_alert (results : List PriceResult) (alerts : List (String × ℚ))
    (cabin : String) : Option AlertSignal :=
  let priced := results.filter (fun r => r.has_price)
  let cabin_upper := asciiUpper cabin
  let cabin_results := priced.filter (fun r => r.cabin_class == cabin_upper)
  match min_by_price cabin_results with
  | none => none
  | some best =>
    let threshold := alerts_get alerts (cabin ++ "_max") 9999
    if priceKey best ≤ threshold then some (.buy best threshold)
    else some (.gap best threshold (priceKey best - threshold))

theorem min_by_price_none_iff (l : List PriceResult) : min_by_price l = none ↔ l = [] := by
  cases l with
  | nil => simp [min_by_price]
  | cons x xs =>
    simp only [min_by_price, List.foldl_cons]
    constructor
    · intro h
      exfalso
      have : ∀ (acc : PriceResult) (ys : List PriceResult),
          ys.foldl (fun acc r =>
            match acc with
            | none => some r
            | some b => if priceKey r < priceKey b then some r else acc) (some acc) ≠ none := by
        intro acc ys
        induction ys generalizing acc with
        | nil => simp
        | cons z zs ih =>
          rw [List.foldl_cons]
          by_cases hz : priceKey z < priceKey acc
          · simpa [hz] using ih z
          · simpa [hz] using ih acc
      exact this x xs h
    · intro h
      cases h

theorem min_by_price_spec (l : List PriceResult) :
    ∀ b, min_by_price l = some b → b ∈ l ∧ ∀ r ∈ l, priceKey b ≤ priceKey r := by
  have main : ∀ (l : List PriceResult) (acc : Option PriceResult) (b : PriceResult),
      l.foldl (fun acc r =>
        match acc with
        | none => some r
        | some b => if priceKey r < priceKey b then some r else acc) acc = some b →
      (acc = some b ∨ b ∈ l) ∧ (∀ r ∈ l, priceKey b ≤ priceKey r)
        ∧ (∀ a, acc = some a → priceKey b ≤ priceKey a) := by
    intro l
    induction l with
    | nil =>
      intro acc b h
      simp only [List.foldl_nil] at h
      refine ⟨Or.inl h, by simp, ?_⟩
      intro a ha
      rw [ha] at h
      injection h with h
      rw [h]
    | cons x xs ih =>
      intro acc b h
      rw [List.foldl_cons] at h
      obtain ⟨hmem, hxs, hacc⟩ := ih _ b h
      cases acc with
      | none =>
        have hbx : priceKey b ≤ priceKey x := hacc x rfl
        refine ⟨?_, ?_, fun a ha => by cases ha⟩
        · rcases hmem with hm | hm
          · injection hm with hm
            exact Or.inr (by rw [← hm]; exact List.mem_cons_self x xs)
          · exact Or.inr (List.mem_cons_of_mem x hm)
        · intro r hr
          rcases List.mem_cons.mp hr with rfl | hr
          · exact hbx
          · exact hxs r hr
      | some a0 =>
        by_cases hlt : priceKey x < priceKey a0
        · simp only [if_pos hlt] at hmem hacc
          have hbx : priceKey b ≤ priceKey x := hacc x rfl
          refine ⟨?_, ?_, ?_⟩
          · rcases hmem with hm | hm
            · injection hm with hm
              exact Or.inr (by rw [← hm]; exact List.mem_cons_self x xs)
            · exact Or.inr (List.mem_cons_of_mem x hm)
          · intro r hr
            rcases List.mem_cons.mp hr with rfl | hr
            · exact hbx
            · exact hxs r hr
          · intro a ha
            injection ha with ha
            subst ha
            exact le_trans hbx (le_of_lt hlt)
        · simp only [if_neg hlt] at hmem hacc
          have hba : priceKey b ≤ priceKey a0 := hacc a0 rfl
          refine ⟨?_, ?_, ?_⟩
          · rcases hmem with hm | hm
            · exact Or.inl hm
            · exact Or.inr (List.mem_cons_of_mem x hm)
          · intro r hr
            rcases List.mem_cons.mp hr with rfl | hr
            · exact le_trans hba (le_of_not_lt hlt)
            · exact hxs r hr
          · intro a ha
            injection ha with ha
            subst ha
            exact hba
  intro b h
  obtain ⟨hmem, hl, _⟩ := main l none b h
  rcases hmem with hm | hm
  · cases hm
  · exact ⟨hm, hl⟩

/-! ### Claim C2 -/

/-- C2 counterexample: with one priced economy observation at 900 EUR and the
threshold 800, the evaluator emits the informational gap signal with amount
900 minus 800 (that is 100, the printed faltan amount), while the claim says
the reported amount equals threshold minus price (800 minus 900); the two
differ. -/
theorem c2_counterexample :
    check_cabin_alert
        [{ cabin_class := "ECONOMY", price := some (mkRat 900 1) }]
        [("economy_max", 800)] "economy"
      = some (AlertSignal.gap { cabin_class := "ECONOMY", price := some (mkRat 900 1) }
          800 (mkRat 900 1 - 800))
    ∧ (mkRat 900 1 - 800 : ℚ) ≠ 800 - mkRat 900 1 := by
  constructor
  · rfl
  · norm_num [Rat.mkRat_eq_div]

/-- C2 amended: for every batch and monitored cabin, the evaluator ignores
observations without a price, selects the minimum price observation among
the priced observations of that cabin, emits a buy signal citing exactly
that observation when its price is at most the threshold, and otherwise
emits an informational gap signal whose amount equals price minus threshold
(not threshold minus price); no signal is emitted exactly when the batch has
no priced observation of the cabin. Re-evaluating the same batch yields the
same signal since the evaluator is a pure function of its arguments. -/
theorem c2_amended_alert_evaluator (results : List PriceResult)
    (alerts : List (String × ℚ)) (cabin : String) :
    check_cabin_alert results alerts cabin
      = check_cabin_alert (results.filter (fun r => r.has_price)) alerts cabin
    ∧ (∀ best th, check_cabin_alert results alerts cabin = some (.buy best th) →
        best ∈ results ∧ best.has_price = true ∧ best.cabin_class = asciiUpper cabin
        ∧ th = alerts_get alerts (cabin ++ "_max") 9999 ∧ priceKey best ≤ th
        ∧ ∀ r ∈ results, r.has_price = true → r.cabin_class = asciiUpper cabin →
            priceKey best ≤ priceKey r)
    ∧ (∀ best th a, check_cabin_alert results alerts cabin = some (.gap best th a) →
        best ∈ results ∧ best.has_price = true ∧ best.cabin_class = asciiUpper cabin
        ∧ th = alerts_get alerts (cabin ++ "_max") 9999 ∧ th < priceKey best
        ∧ a = priceKey best - th
        ∧ ∀ r ∈ results, r.has_price = true → r.cabin_class = asciiUpper cabin →
            priceKey best ≤ priceKey r)
    ∧ (check_cabin_alert results alerts cabin = none ↔
        ∀ r ∈ results, ¬(r.has_price = true ∧ r.cabin_class = asciiUpper cabin)) := by
  have hfilter : (results.filter (fun r => r.has_price)).filter (fun r => r.has_price)
      = results.filter (fun r => r.has_price) := by
    rw [List.filter_filter]
    congr 1
    funext r
    exact Bool.and_self _
  have hmem : ∀ b, b ∈ (results.filter (fun r => r.has_price)).filter
        (fun r => r.cabin_class == asciiUpper cabin) ↔
      b ∈ results ∧ b.has_price = true ∧ b.cabin_class = asciiUpper cabin := by
    intro b
    constructor
    · intro hb
      obtain ⟨hb1, hb2⟩ := List.mem_filter.mp hb
      obtain ⟨hb3, hb4⟩ := List.mem_filter.mp hb1
      exact ⟨hb3, hb4, by simpa using hb2⟩
    · intro ⟨h1, h2, h3⟩
      exact List.mem_filter.mpr ⟨List.mem_filter.mpr ⟨h1, h2⟩, by simpa using h3⟩
  refine ⟨?_, ?_, ?_, ?_⟩
  · simp only [check_cabin_alert, hfilter]
  · intro best th h
    simp only [check_cabin_alert] at h
    split at h
    · simp at h
    · rename_i b hb
      split at h
      · rename_i hcond
        injection h with h
        injection h with h1 h2
        subst h1
        subst h2
        obtain ⟨hbm, hbmin⟩ := min_by_price_spec _ b hb
        obtain ⟨m1, m2, m3⟩ := (hmem b).mp hbm
        refine ⟨m1, m2, m3, rfl, hcond, ?_⟩
        intro r hr hrp hrc
        exact hbmin r ((hmem r).mpr ⟨hr, hrp, hrc⟩)
      · simp at h
  · intro best th a h
    simp only [check_cabin_alert] at h
    split at h
    · simp at h
    · rename_i b hb
      split at h
      · simp at h
      · rename_i hcond
        injection h with h
        injection h with h1 h2 h3
        subst h1
        subst h2
        subst h3
        obtain ⟨hbm, hbmin⟩ := min_by_price_spec _ b hb
        obtain ⟨m1, m2, m3⟩ := (hmem b).mp hbm
        refine ⟨m1, m2, m3, rfl, lt_of_not_le hcond, rfl, ?_⟩
        intro r hr hrp hrc
        exact hbmin r ((hmem r).mpr ⟨hr, hrp, hrc⟩)
  · simp only [check_cabin_alert]
    constructor
    · intro h
      split at h
      · rename_i hnone
        rw [min_by_price_none_iff] at hnone
        intro r hr ⟨hrp, hrc⟩
        have : r ∈ (results.filter (fun r => r.has_price)).filter
            (fun r => r.cabin_class == asciiUpper cabin) := (hmem r).mpr ⟨hr, hrp, hrc⟩
        rw [hnone] at this
        cases this
      · split at h
        · simp at h
        · simp at h
    · intro h
      have : (results.filter (fun r => r.has_price)).filter
          (fun r => r.cabin_class == asciiUpper cabin) = [] := by
        rcases hl : (results.filter (fun r => r.has_price)).filter
            (fun r => r.cabin_class == asciiUpper cabin) with _ | ⟨b, rest⟩
        · exact hl
        · exfalso
          have hb : b ∈ (results.filter (fun r => r.has_price)).filter
              (fun r => r.cabin_class == asciiUpper cabin) := by
            rw [hl]; exact List.mem_cons_self b rest
          obtain ⟨m1, m2, m3⟩ := (hmem b).mp hb
          exact h b m1 ⟨m2, m3⟩
      rw [this]
      rfl

/-- Witness for C2 at a concrete batch: observations priced 750 and 820 plus
one unpriced, threshold 800; the evaluator emits the buy signal citing the
750 observation, which belongs to the batch, is priced in the cabin, meets
the threshold and is minimal among the priced cabin observations. -/
theorem c2_amended_alert_evaluator_witness :
    ({ cabin_class := "ECONOMY", price := some (mkRat 750 1) } : PriceResult)
        ∈ [({ cabin_class := "ECONOMY", price := some (mkRat 750 1) } : PriceResult),
           { cabin_class := "ECONOMY", price := some (mkRat 820 1) },
           { cabin_class := "ECONOMY" }]
      ∧ ({ cabin_class := "ECONOMY", price := some (mkRat 750 1) } : PriceResult).has_price
          = true
      ∧ ({ cabin_class := "ECONOMY", price := some (mkRat 750 1) } : PriceResult).cabin_class
          = asciiUpper "economy"
      ∧ (800 : ℚ) = alerts_get [("economy_max", 800)] ("economy" ++ "_max") 9999
      ∧ priceKey { cabin_class := "ECONOMY", price := some (mkRat 750 1) } ≤ 800
      ∧ ∀ r ∈ [({ cabin_class := "ECONOMY", price := some (mkRat 750 1) } : PriceResult),
           { cabin_class := "ECONOMY", price := some (mkRat 820 1) },
           { cabin_class := "ECONOMY" }],
          r.has_price = true → r.cabin_class = asciiUpper "economy" →
            priceKey { cabin_class := "ECONOMY", price := some (mkRat 750 1) } ≤ priceKey r :=
  (c2_amended_alert_evaluator
      [{ cabin_class := "ECONOMY", price := some (mkRat 750 1) },
       { cabin_class := "ECONOMY", price := some (mkRat 820 1) },
       { cabin_class := "ECONOMY" }]
      [("economy_max", 800)] "economy").2.1
    { cabin_class := "ECONOMY", price := some (mkRat 750 1) } 800 (by decide)

/-! ## train_scraper.py : provider fallback orchestration (scrape_train_route)

Each provider function catches all its exceptions internally and returns
either a result dict or None, so one (travel date, cabin) step of the route
scan sees three optional rows. The source tests them with
`not data or not data.get("price")`, where a missing row or a zero price
(the only falsy float) sends the query to the next provider. -/

/-- Truthiness test of the source on a provider row. -/
def provider_priced : Option TrainRow → Bool
  | none => false
  | some d => decide (d.price ≠ 0)

/-- Provider chain of one query: Renfe, then Trainline, then Omio, each
consulted only when the previous outcome is missing or unpriced. -/
def provider_chain (renfe trainline omio : Option TrainRow) : Option TrainRow :=
  let d1 := renfe
  let d2 := if provider_priced d1 then d1 else trainline
  let d3 := if provider_priced d2 then d2 else omio
  d3

/-- Observation recorded for one (date, cabin) query: a priced row becomes a
priced observation, anything else becomes an unpriced observation; exactly
one observation is produced either way. -/
def record_train_observation (data : Option TrainRow) (route_id date_str cabin : String) :
    PriceResult :=
  match data with
  | some d =>
    if d.price ≠ 0 then
      { route_id := route_id, transport_type := "train", cabin_class := asciiUpper cabin,
        price := some d.price, currency := "EUR", train_type := d.train_type,
        departure_time := ⟨d.departure_time⟩, arrival_time := ⟨d.arrival_time⟩,
        duration := ⟨d.duration⟩, week_start := date_str, travel_date := date_str }
    else
      { route_id := route_id, transport_type := "train", cabin_class := asciiUpper cabin,
        week_start := date_str, travel_date := date_str }
  | none =>
    { route_id := route_id, transport_type := "train", cabin_class := asciiUpper cabin,
      week_start := date_str, travel_date := date_str }

/-- One (date, cabin) step of scrape_train_route. -/
def scrape_train_query (renfe trainline omio : Option TrainRow)
    (route_id date_str cabin : String) : PriceResult :=
  record_train_observation (provider_chain renfe trainline omio) route_id date_str cabin

/-- First priced row among the provider outcomes in priority order. -/
def first_priced (l : List (Option TrainRow)) : Option TrainRow :=
  (l.filterMap id).find? (fun d => decide (d.price ≠ 0))

theorem provider_chain_eq (r t o : Option TrainRow) :
    provider_chain r t o =
      if provider_priced r then r else if provider_priced t then t else o := by
  rw [provider_chain]
  by_cases h1 : provider_priced r
  · simp [h1]
  · simp [h1]

theorem first_priced_nil : first_priced [] = none := rfl

theorem first_priced_cons (x : Option TrainRow) (l : List (Option TrainRow)) :
    first_priced (x :: l) = if provider_priced x then x else first_priced l := by
  rcases x with _ | d
  · simp [first_priced, provider_priced]
  · by_cases hd : d.price = 0
    · simp [first_priced, provider_priced, List.find?, hd]
    · simp [first_priced, provider_priced, List.find?, hd]

theorem priced_of_provider_priced (x : Option TrainRow) (d : TrainRow)
    (hx : x = some d) (hp : provider_priced x) : d.price ≠ 0 := by
  subst hx
  simpa [provider_priced] using hp

theorem provider_priced_ne_none (x : Option TrainRow) (hp : provider_priced x) :
    x ≠ none := by
  rcases x with _ | d
  · simp [provider_priced] at hp
  · simp

/-! ### Claim C3 -/

/-- C3: One train query tries Renfe, then Trainline, then Omio, stopping at
the first provider with a priced result: whenever some provider in that
order returns a priced row, the chain resolves to the first such row and the
recorded observation carries its price; when no provider returns a priced
row, the step still records exactly one observation with price absent. The
step is a total function of the three provider outcomes (provider failures
arrive as missing outcomes because each provider function catches its own
exceptions), so no single provider failure aborts the route scan, and every
produced observation carries the queried date and cabin. -/
theorem c3_provider_fallback (r t o : Option TrainRow) (rid ds cabin : String) :
    (∀ d, first_priced [r, t, o] = some d →
        provider_chain r t o = some d
        ∧ (scrape_train_query r t o rid ds cabin).price = some d.price)
    ∧ (first_priced [r, t, o] = none →
        (scrape_train_query r t o rid ds cabin).price = none)
    ∧ (scrape_train_query r t o rid ds cabin).week_start = ds
    ∧ (scrape_train_query r t o rid ds cabin).travel_date = ds
    ∧ (scrape_train_query r t o rid ds cabin).cabin_class = asciiUpper cabin
    ∧ (scrape_train_query r t o rid ds cabin).route_id = rid := by
  have hfields : ∀ data : Option TrainRow,
      (record_train_observation data rid ds cabin).week_start = ds
      ∧ (record_train_observation data rid ds cabin).travel_date = ds
      ∧ (record_train_observation data rid ds cabin).cabin_class = asciiUpper cabin
      ∧ (record_train_observation data rid ds cabin).route_id = rid := by
    intro data
    rcases data with _ | d
    · exact ⟨rfl, rfl, rfl, rfl⟩
    · by_cases hd : d.price ≠ 0
      · simp [record_train_observation, hd]
      · simp [record_train_observation, hd]
  refine ⟨?_, ?_, (hfields _).1, (hfields _).2.1, (hfields _).2.2.1, (hfields _).2.2.2⟩
  · intro d hd
    rw [first_priced_cons, first_priced_cons, first_priced_cons, first_priced_nil] at hd
    rw [scrape_train_query, provider_chain_eq]
    by_cases p1 : provider_priced r
    · rw [if_pos p1] at hd ⊢
      refine ⟨hd, ?_⟩
      rw [hd]
      have hp := priced_of_provider_priced r d hd p1
      simp [record_train_observation, hp]
    · rw [if_neg p1] at hd ⊢
      by_cases p2 : provider_priced t
      · rw [if_pos p2] at hd ⊢
        refine ⟨hd, ?_⟩
        rw [hd]
        have hp := priced_of_provider_priced t d hd p2
        simp [record_train_observation, hp]
      · rw [if_neg p2] at hd ⊢
        by_cases p3 : provider_priced o
        · rw [if_pos p3] at hd
          refine ⟨hd, ?_⟩
          rw [hd]
          have hp := priced_of_provider_priced o d hd p3
          simp [record_train_observation, hp]
        · rw [if_neg p3] at hd
          cases hd
  · intro hnone
    rw [first_priced_cons, first_priced_cons, first_priced_cons, first_priced_nil] at hnone
    rw [scrape_train_query, provider_chain_eq]
    by_cases p1 : provider_priced r
    · rw [if_pos p1] at hnone
      exact absurd hnone (provider_priced_ne_none r p1)
    · rw [if_neg p1] at hnone ⊢
      by_cases p2 : provider_priced t
      · rw [if_pos p2] at hnone
        exact absurd hnone (provider_priced_ne_none t p2)
      · rw [if_neg p2] at hnone ⊢
        by_cases p3 : provider_priced o
        · rw [if_pos p3] at hnone
          exact absurd hnone (provider_priced_ne_none o p3)
        · rcases o with _ | d3
          · rfl
          · have h3 : ¬(d3.price ≠ 0) := by
              intro hc
              exact p3 (by simp [provider_priced, hc])
            simp [record_train_observation, h3]

/-- Witness for C3: a failing primary (no outcome), a secondary that
succeeds at 40 EUR and an untried tertiary resolve to the secondary row, and
its price is recorded. -/
theorem c3_provider_fallback_witness :
    provider_chain none (some ⟨mkRat 40 1, "", [], [], []⟩) none
      = some ⟨mkRat 40 1, "", [], [], []⟩
    ∧ (scrape_train_query none (some ⟨mkRat 40 1, "", [], [], []⟩) none
        "R" "2026-01-05" "turista").price
      = some (⟨mkRat 40 1, "", [], [], []⟩ : TrainRow).price :=
  (c3_provider_fallback none (some ⟨mkRat 40 1, "", [], [], []⟩) none
      "R" "2026-01-05" "turista").1
    ⟨mkRat 40 1, "", [], [], []⟩ (by decide)

/-! ### Claim C9 -/

/-- C9 counterexample: the encoder does not raise on an unrecognized cabin
or a malformed geo token; it silently produces an encoded output. With the
invalid cabin string bogus and an arbitrary token, the output is produced
and is identical to the output for the business cabin, and the assembled
byte sequence is a real (nonempty) encoding, not an error. -/
theorem c9_counterexample :
    build_explore_tfs [63] [63] [50] [51] "bogus"
      = build_explore_tfs [63] [63] [50] [51] "business"
    ∧ explore_tfs_bytes [63] [63] [50] [51] "bogus" ≠ [] := by
  refine ⟨?_, by decide⟩
  simp only [build_explore_tfs, explore_tfs_bytes]
  rw [if_neg (by decide : ¬(("bogus" : String) = "economy")),
    if_neg (by decide : ¬(("business" : String) = "economy"))]

/-- C9 amended: the encoder performs no input validation and has no failure
path: any cabin string other than economy (a recognized class or not) is
silently mapped to the cabin enum 3, producing exactly the output of the
business cabin, and any geo token byte sequence is serialized verbatim;
no error is ever raised. -/
theorem c9_amended_no_validation (og dg dd rd : List Nat) (cabin : String)
    (h : cabin ≠ "economy") :
    build_explore_tfs og dg dd rd cabin = build_explore_tfs og dg dd rd "business"
    ∧ explore_tfs_bytes og dg dd rd cabin = explore_tfs_bytes og dg dd rd "business" := by
  constructor
  · simp only [build_explore_tfs, explore_tfs_bytes]
    rw [if_neg h, if_neg (by decide : ¬(("business" : String) = "economy"))]
  · simp only [explore_tfs_bytes]
    rw [if_neg h, if_neg (by decide : ¬(("business" : String) = "economy"))]

/-- Witness for C9 at the invalid cabin string bogus. -/
theorem c9_amended_no_validation_witness :
    build_explore_tfs [63] [64] [50] [51] "bogus"
      = build_explore_tfs [63] [64] [50] [51] "business" :=
  (c9_amended_no_validation [63] [64] [50] [51] "bogus" (by decide)).1

end TravelMonitor
